import Mathlib

/-!
Verification development for the shakuhachi transcription pipeline
(`ServerAudioAnalyzer` and `KinkoMapper`).

Numbers of the TypeScript source (IEEE doubles) are embedded as exact
rationals `ℚ`; all comparisons and arithmetic of the modelled code paths are
exact at the small decimal constants involved.  Calls into transcendental
library functions (`Math.sin`, `Math.exp`, `Math.sqrt`, `Math.log2`) are
abstracted as explicit function parameters: the claims below never depend on
the values these functions return, only on the surrounding control flow.
-/

/-- `DetectedNote` from `lib/audio/analyzer.ts`. -/
structure DetectedNote where
  frequency : ℚ
  amplitude : ℚ
  startTime : ℚ
  duration : ℚ
  pitch : String
  octave : ℤ
  confidence : ℚ
deriving DecidableEq, Repr

/-- `KinkoNote` from the score types.  The TS interface marks `ornaments` and
`techniques` optional; the mapper's fallback note omits them while
`convertNote` always provides them, so they are embedded as `Option`. -/
structure KinkoNote where
  katakana : String
  fingering : String
  pitch : ℚ
  duration : ℚ
  ornaments : Option (List String)
  techniques : Option (List String)
deriving DecidableEq, Repr

/-- `KinkoPhrase`: the mapper always sets `notes` and `breath`; the optional
`expression` field is never produced and is omitted. -/
structure KinkoPhrase where
  notes : List KinkoNote
  breath : Bool
deriving DecidableEq, Repr

/-- `KinkoScore`: the mapper always sets `title` and `phrases`; the optional
`tempo`/`key`/`metadata` fields are never produced and are omitted. -/
structure KinkoScore where
  title : String
  phrases : List KinkoPhrase
deriving DecidableEq, Repr

namespace KinkoMapper

/-- One entry of the `KINKO_NOTES` table (the record values of the TS object;
the object keys such as `'D4'` are never read by the mapper code). -/
structure KinkoTableEntry where
  katakana : String
  fingering : String
  frequency : ℚ
deriving DecidableEq, Repr

/-- `KinkoMapper.KINKO_NOTES`, in the insertion order of the TS object
(the order `Object.entries` iterates in). -/
def KINKO_NOTES : List KinkoTableEntry :=
  [ -- Main notes (hon-on)
    ⟨"ロ", "ro", 293.66⟩,
    ⟨"ツ", "tsu", 349.23⟩,
    ⟨"レ", "re", 392.00⟩,
    ⟨"チ", "chi", 440.00⟩,
    ⟨"リ", "ri", 523.25⟩,
    -- Half-hole variations (meri)
    ⟨"ロ◯", "ro-meri", 311.13⟩,
    ⟨"ツ◯", "tsu-meri", 369.99⟩,
    ⟨"レ◯", "re-meri", 415.30⟩,
    ⟨"チ◯", "chi-meri", 466.16⟩,
    ⟨"リ◯", "ri-meri", 554.37⟩,
    -- Higher octave (kan)
    ⟨"口", "kan-ro", 587.33⟩,
    ⟨"乙", "kan-tsu", 698.46⟩,
    ⟨"工", "kan-re", 783.99⟩,
    ⟨"尺", "kan-chi", 880.00⟩,
    ⟨"上", "kan-ri", 1046.50⟩ ]

/-- The `TECHNIQUES` constant of `KinkoMapper`. -/
structure TechniquesTable where
  vibrato : String
  glissando : String
  accent : String
  breath : String
  long_tone : String
  crescendo : String
  diminuendo : String

def TECHNIQUES : TechniquesTable :=
  { vibrato := "⌒"
    glissando := "／"
    accent := "＞"
    breath := "、"
    long_tone := "—"
    crescendo := "＜"
    diminuendo := "＞" }

/-- `KinkoMapper.isInShakuhachiRange`. -/
def isInShakuhachiRange (frequency : ℚ) : Bool :=
  250 ≤ frequency && frequency ≤ 1200

/-- `KinkoMapper.findClosestKinkoNote`: linear scan over `KINKO_NOTES`
keeping the running `(minDifference, closestNote)` pair, starting from the
`ro` entry and updating on strictly smaller absolute difference. -/
def findClosestKinkoNote (frequency : ℚ) : KinkoTableEntry :=
  (KINKO_NOTES.foldl
    (fun acc noteData =>
      let difference := |frequency - noteData.frequency|
      if difference < acc.1 then (difference, noteData) else acc)
    (|frequency - (293.66 : ℚ)|, ⟨"ロ", "ro", 293.66⟩)).2

/-- `KinkoMapper.detectOrnaments` (the enhanced version): the four pushes of
the TS body, in source order. -/
def detectOrnaments (note : DetectedNote) : List String :=
  (if note.duration > 2.5 then [TECHNIQUES.long_tone] else [])
    ++ (if note.amplitude > 0.85 then [TECHNIQUES.accent] else [])
    ++ (if note.confidence < 0.6 ∧ note.duration > 1.0 then [TECHNIQUES.vibrato] else [])
    ++ (if note.amplitude > 0.7 ∧ note.duration > 1.5 then [TECHNIQUES.crescendo] else [])

/-- `KinkoMapper.detectTechniques` (the enhanced version). -/
def detectTechniques (note : DetectedNote) : List String :=
  let expectedFreq := (findClosestKinkoNote note.frequency).frequency
  let pitchDeviation := |note.frequency - expectedFreq| / expectedFreq
  (if pitchDeviation > 0.03 then
      [if note.frequency < expectedFreq then "meri" else "kari"]
    else [])
    ++ (if note.confidence < 0.65 then ["ornamental"] else [])
    ++ (if note.amplitude < 0.2 then ["breath"] else [])
    ++ (if note.duration < 0.3 then ["grace"] else [])

/-- `KinkoMapper.convertNote`. -/
def convertNote (detectedNote : DetectedNote) : KinkoNote :=
  let closestKinko := findClosestKinkoNote detectedNote.frequency
  { katakana := closestKinko.katakana
    fingering := closestKinko.fingering
    pitch := detectedNote.frequency
    duration := detectedNote.duration
    ornaments := some (detectOrnaments detectedNote)
    techniques := some (detectTechniques detectedNote) }

/-- `KinkoMapper.convertPhrase`. -/
def convertPhrase (notes : List DetectedNote) : KinkoPhrase :=
  { notes := notes.map convertNote
    breath := true }

/-- The `avgDuration` computed inside `groupIntoPhrases`:
`(note.duration + (prevNote?.duration || note.duration)) / 2`.  The JS `||`
falls back to `note.duration` both when there is no previous note and when
the previous note's duration is `0` (falsy). -/
def avgDurationAt (prevNote : Option DetectedNote) (note : DetectedNote) : ℚ :=
  (note.duration +
      (match prevNote with
        | some p => if p.duration = 0 then note.duration else p.duration
        | none => note.duration)) / 2

/-- The phrase-break test of `groupIntoPhrases`, evaluated when a next note
exists; `currentPhraseLen` is the length of the current phrase after the
current note has been pushed. -/
def shouldBreakPhrase (prevNote : Option DetectedNote) (note nextNote : DetectedNote)
    (currentPhraseLen : ℕ) : Bool :=
  let gap := nextNote.startTime - (note.startTime + note.duration)
  let avgDuration := avgDurationAt prevNote note
  decide (gap > 0.8) || decide (gap > avgDuration * 0.5) ||
    decide (|nextNote.frequency - note.frequency| > note.frequency * 0.5) ||
    decide (currentPhraseLen ≥ 8)

/-- The index loop of `groupIntoPhrases`, as a recursion over the remaining
notes carrying the previous note and the currently open phrase.  A phrase is
flushed when the break test fires or when no next note exists. -/
def groupNotesGo (prevNote : Option DetectedNote) (currentPhrase : List DetectedNote) :
    List DetectedNote → List (List DetectedNote)
  | [] => []
  | [note] => [currentPhrase ++ [note]]
  | note :: nextNote :: rest =>
    let currentPhrase' := currentPhrase ++ [note]
    if shouldBreakPhrase prevNote note nextNote currentPhrase'.length then
      currentPhrase' :: groupNotesGo (some note) [] (nextNote :: rest)
    else
      groupNotesGo (some note) currentPhrase' (nextNote :: rest)

/-- Placeholder note used only for guarded (unreachable) list accesses. -/
def dummyNote : DetectedNote := ⟨0, 0, 0, 0, "", 0, 0⟩

/-- The loop of `KinkoMapper.consolidatePhrases`.  In the TS code a merged
phrase is written into `phrases[i+1]` and the loop continues; since the
merged phrase has at least two notes, the very next iteration necessarily
pushes it unchanged, which is inlined here as `(phrase ++ nextPhrase) :: …`. -/
def consolidatePhrasesGo : List (List DetectedNote) → List (List DetectedNote)
  | [] => []
  | [phrase] => if phrase.isEmpty then [] else [phrase]
  | phrase :: nextPhrase :: rest2 =>
    if phrase.isEmpty then consolidatePhrasesGo (nextPhrase :: rest2)
    else if phrase.length = 1 ∧ 0 < nextPhrase.length ∧
        (nextPhrase.headD dummyNote).startTime -
          ((phrase.getLastD dummyNote).startTime + (phrase.getLastD dummyNote).duration) < 1.0 then
      (phrase ++ nextPhrase) :: consolidatePhrasesGo rest2
    else
      phrase :: consolidatePhrasesGo (nextPhrase :: rest2)

/-- `KinkoMapper.consolidatePhrases`.  The TS fallback returns
`[phrases.flat()]`; it is reachable only when no merge ever happened (a merged
phrase always gets pushed), so flattening the original list is faithful. -/
def consolidatePhrases (phrases : List (List DetectedNote)) : List (List DetectedNote) :=
  let consolidated := consolidatePhrasesGo phrases
  if consolidated.isEmpty then [phrases.flatten] else consolidated

/-- `KinkoMapper.groupIntoPhrases` (the enhanced version). -/
def groupIntoPhrases (notes : List DetectedNote) : List (List DetectedNote) :=
  if notes.isEmpty then [] else consolidatePhrases (groupNotesGo none [] notes)

/-- The fallback note of `convertToKinko` (`ornaments`/`techniques` omitted
in the TS literal). -/
def fallbackKinkoNote : KinkoNote :=
  { katakana := "ロ", fingering := "ro", pitch := 293.66, duration := 1.0,
    ornaments := none, techniques := none }

/-- `KinkoMapper.convertToKinko` (the enhanced version with the
range filter and the empty-input fallback). -/
def convertToKinko (detectedNotes : List DetectedNote) : KinkoScore :=
  let filteredNotes := detectedNotes.filter (fun note => isInShakuhachiRange note.frequency)
  if filteredNotes.isEmpty then
    { title := "転写された楽曲"
      phrases := [{ notes := [fallbackKinkoNote], breath := true }] }
  else
    { title := "転写された楽曲"
      phrases := (groupIntoPhrases filteredNotes).map convertPhrase }

end KinkoMapper

namespace ServerAudioAnalyzer

structure ServerAudioAnalysisResult where
  notes : List DetectedNote
  tempo : ℤ
  key : String
  confidence : ℚ
deriving DecidableEq, Repr

/-- The list of candidate periods scanned by the pitch-detection loop
(`for (period = minPeriod; period <= maxPeriod; period++)`). -/
def periodRange (minPeriod maxPeriod : ℤ) : List ℤ :=
  if maxPeriod < minPeriod then []
  else (List.range (maxPeriod - minPeriod + 1).toNat).map (fun (i : ℕ) => minPeriod + (i : ℤ))

/-- The normalized correlation the inner loop computes for one `period`:
raw correlation divided by the normalizer when the latter is positive.
(For `period < 0` the JS code would read out of bounds; every claim below
uses `1 ≤ period` only.) -/
def corrAt (buffer : List ℚ) (period : ℤ) : ℚ :=
  let n := ((buffer.length : ℤ) - period).toNat
  let correlation :=
    ((List.range n).map (fun i => buffer.getD i 0 * buffer.getD ((i : ℤ) + period).toNat 0)).sum
  let normalizer := ((List.range n).map (fun i => buffer.getD i 0 * buffer.getD i 0)).sum
  if normalizer > 0 then correlation / normalizer else correlation

/-- The `bestCorrelation`/`bestPeriod` scan, updating on strictly larger
correlation, starting from `(0, 0)`. -/
def bestPeriodScan (buffer : List ℚ) (periods : List ℤ) : ℚ × ℤ :=
  periods.foldl
    (fun best period =>
      let correlation := corrAt buffer period
      if correlation > best.1 then (correlation, period) else best)
    (0, 0)

/-- `ServerAudioAnalyzer.autocorrelationPitchDetection`. -/
def autocorrelationPitchDetection (buffer : List ℚ) (sampleRate minFreq maxFreq : ℚ) : ℚ :=
  let minPeriod := ⌊sampleRate / maxFreq⌋
  let maxPeriod := ⌊sampleRate / minFreq⌋
  let best := bestPeriodScan buffer (periodRange minPeriod maxPeriod)
  if best.1 > 0.3 ∧ best.2 > 0 then sampleRate / (best.2 : ℚ) else 0

/-- `ServerAudioAnalyzer.calculateRMS`; `sqrtQ` abstracts `Math.sqrt`.
(For an empty buffer JS computes `sqrt(0/0) = NaN`; here `0/0 = 0`.  No claim
evaluates the RMS of an empty buffer.) -/
def calculateRMS (sqrtQ : ℚ → ℚ) (buffer : List ℚ) : ℚ :=
  sqrtQ ((buffer.map (fun x => x * x)).sum / (buffer.length : ℚ))

/-- The `noteNames` table of `frequencyToPitch` (one TS array literal;
written in two halves only to aid reading). -/
def noteNames : List String :=
  ["C", "C#", "D", "D#", "E", "F"] ++ ["F#", "G", "G#", "A", "A#", "B"]

structure PitchOctave where
  pitch : String
  octave : ℤ
deriving DecidableEq, Repr

/-- `ServerAudioAnalyzer.frequencyToPitch`; `log2Q` abstracts `Math.log2`.
JS `%` is the truncated remainder (`Int.tmod`); for a negative note number JS
would index the table at a negative position and yield `undefined`, modelled
by the marker string `"undefined"`. -/
def frequencyToPitch (log2Q : ℚ → ℚ) (frequency : ℚ) : PitchOctave :=
  let noteNumber : ℤ := round (12 * log2Q (frequency / 440) + 57)
  let octave := Int.fdiv noteNumber 12 - 1
  let pitchClass := Int.tmod noteNumber 12
  { pitch := if pitchClass < 0 then "undefined" else noteNames.getD pitchClass.toNat "undefined"
    octave := max 0 octave }

/-- `ServerAudioAnalyzer.calculatePitchConfidence`.  The peak is the maximum
of the absolute samples (equal to JS `Math.max(...)` for the non-empty frames
the analyzer produces). -/
def calculatePitchConfidence (sqrtQ : ℚ → ℚ) (frequency : ℚ) (buffer : List ℚ)
    (amplitude : ℚ) : ℚ :=
  let rms := calculateRMS sqrtQ buffer
  let peak := (buffer.map (fun x => |x|)).foldl max 0
  let clarity := if peak > 0 then rms / peak else 0
  let amplitudeScore := min (amplitude * 10) 1
  let frequencyScore : ℚ := if frequency < 100 ∨ frequency > 1500 then 0.5 else 1.0
  clarity * 0.4 + amplitudeScore * 0.4 + frequencyScore * 0.2

/-- The in-place `notes.sort((a, b) => a.startTime - b.startTime)`;
JS sorts are stable, as is `List.mergeSort`. -/
def sortByStartTime (notes : List DetectedNote) : List DetectedNote :=
  notes.mergeSort (fun a b => decide (a.startTime ≤ b.startTime))

/-- The scan of `consolidateNotes` over the sorted notes, carrying the open
`currentNote`. -/
def consolidateGoNotes (currentNote : DetectedNote) : List DetectedNote → List DetectedNote
  | [] => if currentNote.duration ≥ 0.05 then [currentNote] else []
  | note :: rest =>
    if |note.frequency - currentNote.frequency| < 10 ∧
        note.startTime - (currentNote.startTime + currentNote.duration) < 0.1 then
      consolidateGoNotes
        { currentNote with
            duration := note.startTime + note.duration - currentNote.startTime
            amplitude := max currentNote.amplitude note.amplitude
            confidence := max currentNote.confidence note.confidence }
        rest
    else
      (if currentNote.duration ≥ 0.05 then [currentNote] else []) ++ consolidateGoNotes note rest

/-- `ServerAudioAnalyzer.consolidateNotes`. -/
def consolidateNotes (notes : List DetectedNote) : List DetectedNote :=
  match sortByStartTime notes with
  | [] => []
  | n :: rest => consolidateGoNotes n rest

/-- The filtered inter-onset intervals of `detectTempo`. -/
def tempoIntervals (notes : List DetectedNote) : List ℚ :=
  ((notes.zip notes.tail).map (fun p => p.2.startTime - p.1.startTime)).filter
    (fun interval => 0.1 < interval ∧ interval < 4.0)

/-- The ascending sort of the filtered intervals (`intervals.sort((a, b) =>
a - b)`). -/
def sortedTempoIntervals (notes : List DetectedNote) : List ℚ :=
  (tempoIntervals notes).mergeSort (fun a b => decide (a ≤ b))

/-- `intervals[Math.floor(intervals.length / 2)]` of the sorted intervals
(the `getD` default is unreachable: the caller guards non-emptiness). -/
def medianInterval (notes : List DetectedNote) : ℚ :=
  (sortedTempoIntervals notes).getD ((sortedTempoIntervals notes).length / 2) 0

set_option linter.unusedVariables false in
/-- `ServerAudioAnalyzer.detectTempo`.  `round` is `⌊x + 1/2⌋`, exactly JS
`Math.round`; the `duration` parameter is unused, as in the source. -/
def detectTempo (notes : List DetectedNote) (duration : ℚ) : ℤ :=
  if notes.length < 4 then 100
  else
    let intervals := tempoIntervals notes
    if intervals.isEmpty then 100
    else
      let bpm := round ((60 : ℚ) / medianInterval notes)
      max 60 (min 180 bpm)

/-- One update of the pitch-class histogram:
`histogram[note.pitch] = (histogram[note.pitch] || 0) + duration × confidence`. -/
def histStep (histogram : String → ℚ) (note : DetectedNote) : String → ℚ :=
  fun p =>
    if p = note.pitch then histogram p + note.duration * note.confidence else histogram p

/-- The `pitchClassHistogram` object of `detectKey`, as a total function that
is `0` off the recorded pitches (`histogram[p] || 0`). -/
def pitchClassHistogram (notes : List DetectedNote) : String → ℚ :=
  notes.foldl histStep (fun _ => 0)

def shakuhachiKeys : List String := ["D", "Eb", "F", "G", "A", "Bb"]

/-- The `scalePatterns` table, with the `|| scalePatterns['D']` fallback. -/
def scalePatterns (key : String) : List String :=
  if key = "D" then ["D", "F", "G", "A", "C"]
  else if key = "Eb" then ["Eb", "Gb", "Ab", "Bb", "Db"]
  else if key = "F" then ["F", "Ab", "Bb", "C", "Eb"]
  else if key = "G" then ["G", "Bb", "C", "D", "F"]
  else if key = "A" then ["A", "C", "D", "E", "G"]
  else if key = "Bb" then ["Bb", "Db", "Eb", "F", "Ab"]
  else ["D", "F", "G", "A", "C"]

/-- `ServerAudioAnalyzer.calculateKeyScore`; the `if (histogram[pitch])`
truthiness test adds the bucket only when it is non-zero. -/
def calculateKeyScore (histogram : String → ℚ) (key : String) : ℚ :=
  (scalePatterns key).foldl
    (fun score pitch => if histogram pitch ≠ 0 then score + histogram pitch else score) 0

/-- `ServerAudioAnalyzer.detectKey`: strictly-improving scan over
`shakuhachiKeys` starting from `(0, 'D')`. -/
def detectKey (notes : List DetectedNote) : String :=
  if notes.isEmpty then "D"
  else
    let histogram := pitchClassHistogram notes
    (shakuhachiKeys.foldl
      (fun best key =>
        let score := calculateKeyScore histogram key
        if score > best.1 then (score, key) else best)
      ((0 : ℚ), "D")).2

/-- `ServerAudioAnalyzer.calculateOverallConfidence`. -/
def calculateOverallConfidence (notes : List DetectedNote) : ℚ :=
  if notes.isEmpty then 0
  else
    let averageConfidence := (notes.map (·.confidence)).sum / (notes.length : ℚ)
    let noteCount := notes.length
    let density := min ((noteCount : ℚ) / 50) 1
    let countScore : ℚ :=
      if noteCount < 5 then (noteCount : ℚ) / 5
      else if noteCount > 200 then 0.8 else 1.0
    averageConfidence * 0.6 + density * 0.2 + countScore * 0.2

/-- The frame start offsets of `detectNotesFromSamples`
(`for (i = 0; i < samples.length - frameSize; i += hopSize)` with
`frameSize = 2048`, `hopSize = 512`). -/
def frameStarts (numSamples : ℕ) : List ℕ :=
  (List.range numSamples).filter (fun i => i % 512 = 0 ∧ i + 2048 < numSamples)

/-- `ServerAudioAnalyzer.detectNotesFromSamples`. -/
def detectNotesFromSamples (sqrtQ log2Q : ℚ → ℚ) (samples : List ℚ) (sampleRate : ℚ) :
    List DetectedNote :=
  let notes := (frameStarts samples.length).filterMap (fun i =>
    let frame := (samples.drop i).take 2048
    let frequency := autocorrelationPitchDetection frame sampleRate 80 2000
    if frequency > 0 then
      let amplitude := calculateRMS sqrtQ frame
      if amplitude > 0.01 then
        let po := frequencyToPitch log2Q frequency
        some
          { frequency := frequency
            amplitude := amplitude
            startTime := (i : ℚ) / sampleRate
            duration := 512 / sampleRate
            pitch := po.pitch
            octave := po.octave
            confidence := calculatePitchConfidence sqrtQ frequency frame amplitude }
      else none
    else none)
  consolidateNotes notes

/-- `ServerAudioAnalyzer.bufferToSamples`; `sampleAt` abstracts the synthetic
per-index sample formula (sines and an exponential envelope over ℝ).  The
claims below never depend on the sample values, only on the sample count
`min(buffer.length, 44100 * 30)`. -/
def bufferToSamples (sampleAt : ℕ → ℚ) (buffer : List ℕ) : List ℚ :=
  (List.range (min buffer.length (44100 * 30))).map sampleAt

/-- `ServerAudioAnalyzer.analyzeAudioBuffer`.  The sample-rate line
`Math.floor(samples.length / duration) || 44100` falls back to `44100` when
the floor is `0` (and JS also when `duration = 0`, where the quotient is
`NaN`, which the `duration = 0` branch mirrors).  Nothing on this path can
throw, so the `try`/`catch` always takes the `.ok` branch. -/
def analyzeAudioBuffer (sqrtQ log2Q : ℚ → ℚ) (sampleAt : ℕ → ℚ) (buffer : List ℕ)
    (duration : ℚ) : Except String ServerAudioAnalysisResult :=
  let samples := bufferToSamples sampleAt buffer
  let floorRate : ℤ := if duration = 0 then 0 else ⌊(samples.length : ℚ) / duration⌋
  let sampleRate : ℚ := if floorRate = 0 then 44100 else (floorRate : ℚ)
  let notes := detectNotesFromSamples sqrtQ log2Q samples sampleRate
  .ok
    { notes := notes
      tempo := detectTempo notes duration
      key := detectKey notes
      confidence := calculateOverallConfidence notes }

end ServerAudioAnalyzer

/-- The running `(minDifference, closestNote)` scan of `findClosestKinkoNote`
(definitionally the fold in that definition). -/
def KinkoMapper.closestScan (f : ℚ) (acc : ℚ × KinkoMapper.KinkoTableEntry)
    (l : List KinkoMapper.KinkoTableEntry) : ℚ × KinkoMapper.KinkoTableEntry :=
  l.foldl
    (fun acc noteData =>
      if |f - noteData.frequency| < acc.1 then (|f - noteData.frequency|, noteData) else acc)
    acc

/-! ### Concrete inputs used in witnesses and counterexamples -/

/-- A strictly period-2 alternating buffer: at sample rate 8 with the period
range 2‥4, lags 2 and 4 attain exactly the same maximal normalized
correlation 1. -/
def tieBuffer : List ℚ := [1, -1, 1, -1, 1, -1, 1, -1]

/-- A note run whose first note is separated from the rest by a large pitch
jump (gap 0): the grouped single-note phrase is merged back by
`consolidatePhrases`, producing one 9-note phrase. -/
def longJumpRun : List DetectedNote :=
  [ ⟨300, 0.5, 0, 1, "D", 4, 1⟩,
    ⟨600, 0.5, 1, 1, "D", 5, 1⟩,
    ⟨600, 0.5, 2, 1, "D", 5, 1⟩,
    ⟨600, 0.5, 3, 1, "D", 5, 1⟩,
    ⟨600, 0.5, 4, 1, "D", 5, 1⟩,
    ⟨600, 0.5, 5, 1, "D", 5, 1⟩,
    ⟨600, 0.5, 6, 1, "D", 5, 1⟩,
    ⟨600, 0.5, 7, 1, "D", 5, 1⟩,
    ⟨600, 0.5, 8, 1, "D", 5, 1⟩ ]

/-- A run whose middle note has a zero-duration predecessor: the JS `||`
fallback makes the code use the current note's duration instead of the
previous one's, so the claimed average-duration break rule does not fire. -/
def zeroDurationRun : List DetectedNote :=
  [ ⟨300, 0.5, 0, 0, "D", 4, 1⟩,
    ⟨300, 0.5, 0, 1, "D", 4, 1⟩,
    ⟨300, 0.5, 1.3, 1, "D", 4, 1⟩ ]

/-- A gapless ten-note run (no silence, no pitch jumps) used to witness the
phrase-length behaviour. -/
def gaplessRun : List DetectedNote :=
  [ ⟨300, 0.5, 0, 1, "D", 4, 1⟩,
    ⟨300, 0.5, 1, 1, "D", 4, 1⟩,
    ⟨300, 0.5, 2, 1, "D", 4, 1⟩,
    ⟨300, 0.5, 3, 1, "D", 4, 1⟩,
    ⟨300, 0.5, 4, 1, "D", 4, 1⟩,
    ⟨300, 0.5, 5, 1, "D", 4, 1⟩,
    ⟨300, 0.5, 6, 1, "D", 4, 1⟩,
    ⟨300, 0.5, 7, 1, "D", 4, 1⟩,
    ⟨300, 0.5, 8, 1, "D", 4, 1⟩,
    ⟨300, 0.5, 9, 1, "D", 4, 1⟩ ]

/-- A single note with a negative duration (hence negative histogram weight):
the key scan then returns a key that does not attain the maximal score. -/
def negWeightNote : DetectedNote := ⟨300, 0.5, 0, -1, "C", 4, 1⟩

/-- A single note on pitch class `F`: the `Bb` pentatonic pattern contains
`'F'`, so the `Bb` candidate scores the full weight of this note. -/
def pitchFNote : DetectedNote := ⟨349, 0.5, 0, 1, "F", 4, 1⟩

/-- A loud short note (amplitude 0.95, duration 0.3 s). -/
def accentNote : DetectedNote := ⟨440, 0.95, 0, 0.3, "A", 4, 1⟩

/-- A soft long note (amplitude 0.8, duration 3 s). -/
def longNote : DetectedNote := ⟨440, 0.8, 0, 3.0, "A", 4, 0.9⟩

/-- Four evenly spaced notes (inter-onset interval 1 s). -/
def tempoRun : List DetectedNote :=
  [ ⟨300, 0.5, 0, 0.5, "D", 4, 1⟩,
    ⟨300, 0.5, 1, 0.5, "D", 4, 1⟩,
    ⟨300, 0.5, 2, 0.5, "D", 4, 1⟩,
    ⟨300, 0.5, 3, 0.5, "D", 4, 1⟩ ]

/-- Two overlapping frames of the same pitch, used to witness the
note-consolidation step. -/
def mergeCur : DetectedNote := ⟨440, 0.5, 0, 0.01, "A", 4, 0.5⟩

def mergeNext : DetectedNote := ⟨441, 0.6, 0.02, 0.01, "A", 4, 1⟩

/-! ### Generic lemmas about the strictly-improving scans -/

/-- The strictly-improving maximum scan shared by `detectKey` and by the
autocorrelation period search (the two folds are definitionally of this
shape). -/
def argmaxScan {α : Type} (score : α → ℚ) (init : ℚ × α) (l : List α) : ℚ × α :=
  l.foldl (fun best x => if score x > best.1 then (score x, x) else best) init

/-- A strictly-improving scan either keeps its initial accumulator — and then
no element scores above the initial value — or ends at the first element
attaining the maximum, which strictly exceeds the initial value. -/
theorem argmaxScan_spec {α : Type} (score : α → ℚ) :
    ∀ (l : List α) (b : ℚ) (k : α),
      (argmaxScan score (b, k) l = (b, k) ∧ ∀ x ∈ l, score x ≤ b) ∨
        (score (argmaxScan score (b, k) l).2 = (argmaxScan score (b, k) l).1 ∧
          b < (argmaxScan score (b, k) l).1 ∧
          ∃ l1 l2, l = l1 ++ (argmaxScan score (b, k) l).2 :: l2 ∧
            (∀ x ∈ l1, score x < (argmaxScan score (b, k) l).1) ∧
            (∀ x ∈ l2, score x ≤ (argmaxScan score (b, k) l).1)) := by
  intro l
  induction l with
  | nil => intro b k; exact Or.inl ⟨rfl, by simp⟩
  | cons x xs ih =>
    intro b k
    by_cases hx : score x > b
    · have hstep : argmaxScan score (b, k) (x :: xs) = argmaxScan score (score x, x) xs := by
        simp [argmaxScan, hx]
      rcases ih (score x) x with ⟨heq, hle⟩ | ⟨hsc, hlt, l1, l2, hsplit, hl1, hl2⟩
      · refine Or.inr ?_
        rw [hstep, heq]
        exact ⟨rfl, hx, [], xs, rfl, by simp, hle⟩
      · refine Or.inr ?_
        rw [hstep]
        refine ⟨hsc, lt_trans hx hlt, x :: l1, l2,
          by rw [List.cons_append]; exact congrArg _ hsplit, ?_, hl2⟩
        intro y hy
        rcases List.mem_cons.mp hy with rfl | hy
        · exact hlt
        · exact hl1 y hy
    · have hstep : argmaxScan score (b, k) (x :: xs) = argmaxScan score (b, k) xs := by
        simp [argmaxScan, hx]
      rcases ih b k with ⟨heq, hle⟩ | ⟨hsc, hlt, l1, l2, hsplit, hl1, hl2⟩
      · exact Or.inl ⟨by rw [hstep, heq], by
          intro y hy
          rcases List.mem_cons.mp hy with rfl | hy
          · exact le_of_not_lt hx
          · exact hle y hy⟩
      · refine Or.inr ?_
        rw [hstep]
        refine ⟨hsc, hlt, x :: l1, l2,
          by rw [List.cons_append]; exact congrArg _ hsplit, ?_, hl2⟩
        intro y hy
        rcases List.mem_cons.mp hy with rfl | hy
        · exact lt_of_le_of_lt (le_of_not_lt hx) hlt
        · exact hl1 y hy

/-- Every element of the scan's trace: the result is the initial element or a
member of the list. -/
theorem argmaxScan_mem {α : Type} (score : α → ℚ) :
    ∀ (l : List α) (b : ℚ) (k : α),
      (argmaxScan score (b, k) l).2 = k ∨ (argmaxScan score (b, k) l).2 ∈ l := by
  intro l b k
  rcases argmaxScan_spec score l b k with ⟨heq, _⟩ | ⟨_, _, l1, l2, hsplit, _, _⟩
  · rw [heq]; exact Or.inl rfl
  · refine Or.inr ?_
    have hm : (argmaxScan score (b, k) l).2 ∈ l1 ++ (argmaxScan score (b, k) l).2 :: l2 :=
      List.mem_append_right _ (List.mem_cons_self _ _)
    rw [← hsplit] at hm
    exact hm

/-- The scan value bounds every element's score. -/
theorem argmaxScan_le {α : Type} (score : α → ℚ) (l : List α) (b : ℚ) (k : α) :
    ∀ x ∈ l, score x ≤ (argmaxScan score (b, k) l).1 := by
  rcases argmaxScan_spec score l b k with ⟨heq, hle⟩ | ⟨hsc, _, l1, l2, hsplit, hl1, hl2⟩
  · intro x hx; rw [heq]; exact hle x hx
  · intro x hx
    rw [hsplit] at hx
    rcases List.mem_append.mp hx with hx | hx
    · exact le_of_lt (hl1 x hx)
    · rcases List.mem_cons.mp hx with rfl | hx
      · exact le_of_eq hsc
      · exact hl2 x hx

/-! ### The closest-note scan -/

namespace KinkoMapper

theorem closestScan_spec (f : ℚ) :
    ∀ (l : List KinkoTableEntry) (acc : ℚ × KinkoTableEntry),
      acc.1 = |f - acc.2.frequency| →
      (closestScan f acc l).1 = |f - (closestScan f acc l).2.frequency| ∧
        ((closestScan f acc l).2 = acc.2 ∨ (closestScan f acc l).2 ∈ l) ∧
        (closestScan f acc l).1 ≤ acc.1 ∧
        ∀ e ∈ l, (closestScan f acc l).1 ≤ |f - e.frequency| := by
  intro l
  induction l with
  | nil => intro acc hacc; exact ⟨hacc, Or.inl rfl, le_refl _, by simp⟩
  | cons x xs ih =>
    intro acc hacc
    by_cases hx : |f - x.frequency| < acc.1
    · have hstep : closestScan f acc (x :: xs) = closestScan f (|f - x.frequency|, x) xs := by
        simp [closestScan, hx]
      obtain ⟨h1, h2, h3, h4⟩ := ih (|f - x.frequency|, x) rfl
      rw [hstep]
      refine ⟨h1, ?_, le_trans h3 (le_of_lt hx), ?_⟩
      · rcases h2 with h2 | h2
        · exact Or.inr (by rw [h2]; exact List.mem_cons_self x xs)
        · exact Or.inr (List.mem_cons_of_mem _ h2)
      · intro e he
        rcases List.mem_cons.mp he with rfl | he
        · exact h3
        · exact h4 e he
    · have hstep : closestScan f acc (x :: xs) = closestScan f acc xs := by
        simp [closestScan, hx]
      obtain ⟨h1, h2, h3, h4⟩ := ih acc hacc
      rw [hstep]
      refine ⟨h1, ?_, h3, ?_⟩
      · rcases h2 with h2 | h2
        · exact Or.inl h2
        · exact Or.inr (List.mem_cons_of_mem _ h2)
      · intro e he
        rcases List.mem_cons.mp he with rfl | he
        · exact le_trans h3 (le_of_not_lt hx)
        · exact h4 e he

end KinkoMapper

/-- C2: for every input frequency, `findClosestKinkoNote` returns an entry of
the fixed 15-entry `KINKO_NOTES` table whose canonical frequency minimizes the
absolute Hz distance to the input; the mapping is total (it always returns a
table entry, with no failure case). -/
theorem findClosestKinkoNote_minimizes (frequency : ℚ) :
    KinkoMapper.findClosestKinkoNote frequency ∈ KinkoMapper.KINKO_NOTES ∧
      KinkoMapper.KINKO_NOTES.length = 15 ∧
      ∀ e ∈ KinkoMapper.KINKO_NOTES,
        |frequency - (KinkoMapper.findClosestKinkoNote frequency).frequency| ≤
          |frequency - e.frequency| := by
  have hdef : KinkoMapper.findClosestKinkoNote frequency =
      (KinkoMapper.closestScan frequency
        (|frequency - (293.66 : ℚ)|, ⟨"ロ", "ro", 293.66⟩) KinkoMapper.KINKO_NOTES).2 := rfl
  obtain ⟨h1, h2, h3, h4⟩ :=
    KinkoMapper.closestScan_spec frequency KinkoMapper.KINKO_NOTES
      (|frequency - (293.66 : ℚ)|, ⟨"ロ", "ro", 293.66⟩) rfl
  refine ⟨?_, rfl, ?_⟩
  · rw [hdef]
    rcases h2 with h2 | h2
    · rw [h2]; simp [KinkoMapper.KINKO_NOTES]
    · exact h2
  · intro e he
    rw [hdef, ← h1]
    exact h4 e he

/-- Witness for C2 at the concrete frequency 500 Hz and the `ri` table
entry. -/
theorem findClosestKinkoNote_minimizes_witness :
    KinkoMapper.findClosestKinkoNote 500 ∈ KinkoMapper.KINKO_NOTES ∧
      |(500 : ℚ) - (KinkoMapper.findClosestKinkoNote 500).frequency| ≤
        |(500 : ℚ) - (523.25 : ℚ)| :=
  ⟨(findClosestKinkoNote_minimizes 500).1,
    (findClosestKinkoNote_minimizes 500).2.2 ⟨"リ", "ri", 523.25⟩
      (by simp [KinkoMapper.KINKO_NOTES])⟩

/-- C9: the ornament classifier adds the long-tone ornament exactly when
`duration > 2.5 s` and the accent ornament exactly when `amplitude > 0.85`;
in particular a note with amplitude 0.95 and duration 0.3 s receives the
accent ornament and not the long-tone ornament, and a note with amplitude 0.8
and duration 3.0 s receives the long-tone ornament. -/
theorem detectOrnaments_thresholds (note : DetectedNote) :
    (KinkoMapper.TECHNIQUES.long_tone ∈ KinkoMapper.detectOrnaments note ↔
        2.5 < note.duration) ∧
      (KinkoMapper.TECHNIQUES.accent ∈ KinkoMapper.detectOrnaments note ↔
        0.85 < note.amplitude) ∧
      (note.amplitude = 0.95 → note.duration = 0.3 →
        KinkoMapper.TECHNIQUES.accent ∈ KinkoMapper.detectOrnaments note ∧
          KinkoMapper.TECHNIQUES.long_tone ∉ KinkoMapper.detectOrnaments note) ∧
      (note.amplitude = 0.8 → note.duration = 3.0 →
        KinkoMapper.TECHNIQUES.long_tone ∈ KinkoMapper.detectOrnaments note) := by
  have hlong : KinkoMapper.TECHNIQUES.long_tone ∈ KinkoMapper.detectOrnaments note ↔
      2.5 < note.duration := by
    simp only [KinkoMapper.detectOrnaments, KinkoMapper.TECHNIQUES, List.mem_append]
    split_ifs <;> simp_all
  have haccent : KinkoMapper.TECHNIQUES.accent ∈ KinkoMapper.detectOrnaments note ↔
      0.85 < note.amplitude := by
    simp only [KinkoMapper.detectOrnaments, KinkoMapper.TECHNIQUES, List.mem_append]
    split_ifs <;> simp_all
  refine ⟨hlong, haccent, ?_, ?_⟩
  · intro h1 h2
    refine ⟨haccent.mpr (by rw [h1]; norm_num), ?_⟩
    rw [hlong, h2]
    norm_num
  · intro h1 h2
    exact hlong.mpr (by rw [h2]; norm_num)

/-- Witness for C9 at the two concrete notes of the claim. -/
theorem detectOrnaments_thresholds_witness :
    (KinkoMapper.TECHNIQUES.accent ∈ KinkoMapper.detectOrnaments accentNote ∧
        KinkoMapper.TECHNIQUES.long_tone ∉ KinkoMapper.detectOrnaments accentNote) ∧
      KinkoMapper.TECHNIQUES.long_tone ∈ KinkoMapper.detectOrnaments longNote :=
  ⟨(detectOrnaments_thresholds accentNote).2.2.1 rfl rfl,
    (detectOrnaments_thresholds longNote).2.2.2 rfl rfl⟩

/-- C3: the tempo estimator always returns an integer BPM in `[60, 180]`;
with fewer than 4 notes, or with no inter-onset interval strictly inside
`(0.1 s, 4.0 s)`, it returns exactly 100; otherwise it returns
`round(60 / median interval)` clamped to `[60, 180]`. -/
theorem detectTempo_spec (notes : List DetectedNote) (duration : ℚ) :
    (60 ≤ ServerAudioAnalyzer.detectTempo notes duration ∧
        ServerAudioAnalyzer.detectTempo notes duration ≤ 180) ∧
      (notes.length < 4 → ServerAudioAnalyzer.detectTempo notes duration = 100) ∧
      (4 ≤ notes.length → ServerAudioAnalyzer.tempoIntervals notes = [] →
        ServerAudioAnalyzer.detectTempo notes duration = 100) ∧
      (4 ≤ notes.length → ServerAudioAnalyzer.tempoIntervals notes ≠ [] →
        ServerAudioAnalyzer.detectTempo notes duration =
          max 60 (min 180 (round ((60 : ℚ) / ServerAudioAnalyzer.medianInterval notes)))) := by
  have hunfold : ServerAudioAnalyzer.detectTempo notes duration =
      if notes.length < 4 then 100
      else if (ServerAudioAnalyzer.tempoIntervals notes).isEmpty then 100
      else max 60 (min 180 (round ((60 : ℚ) / ServerAudioAnalyzer.medianInterval notes))) := rfl
  rw [hunfold]
  by_cases h4 : notes.length < 4
  · rw [if_pos h4]
    exact ⟨by norm_num, fun _ => rfl, fun h _ => absurd h4 (not_lt.mpr h),
      fun h _ => absurd h4 (not_lt.mpr h)⟩
  · rw [if_neg h4]
    by_cases hi : ServerAudioAnalyzer.tempoIntervals notes = []
    · rw [if_pos (by simp [hi])]
      exact ⟨by norm_num, fun h => absurd h h4, fun _ _ => rfl, fun _ hne => absurd hi hne⟩
    · rw [if_neg (by simp [List.isEmpty_iff, hi])]
      exact ⟨⟨le_max_left _ _, max_le (by norm_num) (min_le_left _ _)⟩,
        fun h => absurd h h4, fun _ h => absurd h hi, fun _ _ => rfl⟩

/-- Witness for C3: the short-input default and the median path at four
evenly spaced notes. -/
theorem detectTempo_spec_witness :
    ServerAudioAnalyzer.detectTempo [] 10 = 100 ∧
      ServerAudioAnalyzer.detectTempo tempoRun 10 =
        max 60 (min 180 (round ((60 : ℚ) / ServerAudioAnalyzer.medianInterval tempoRun))) :=
  ⟨(detectTempo_spec [] 10).2.1 (by simp),
    (detectTempo_spec tempoRun 10).2.2.2 (by simp [tempoRun])
      (by with_unfolding_all decide)⟩

/-- Every note emitted by the consolidation scan has duration at least
0.05 s. -/
theorem consolidateGoNotes_duration :
    ∀ (rest : List DetectedNote) (currentNote n : DetectedNote),
      n ∈ ServerAudioAnalyzer.consolidateGoNotes currentNote rest → 0.05 ≤ n.duration := by
  intro rest
  induction rest with
  | nil =>
    intro cur n h
    simp only [ServerAudioAnalyzer.consolidateGoNotes] at h
    by_cases hd : cur.duration ≥ 0.05
    · rw [if_pos hd] at h
      rw [List.mem_singleton] at h
      subst h
      exact hd
    · rw [if_neg hd] at h
      exact absurd h (List.not_mem_nil n)
  | cons note rest ih =>
    intro cur n h
    simp only [ServerAudioAnalyzer.consolidateGoNotes] at h
    by_cases hc : |note.frequency - cur.frequency| < 10 ∧
        note.startTime - (cur.startTime + cur.duration) < 0.1
    · rw [if_pos hc] at h
      exact ih _ n h
    · rw [if_neg hc] at h
      rcases List.mem_append.mp h with h | h
      · by_cases hd : cur.duration ≥ 0.05
        · rw [if_pos hd] at h
          rw [List.mem_singleton] at h
          subst h
          exact hd
        · rw [if_neg hd] at h
          exact absurd h (List.not_mem_nil n)
      · exact ih _ n h

/-- C5: the consolidation scan extends the open note into the next frame
exactly when the frequency difference is below 10 Hz and the gap is below
0.1 s; on extension the duration grows to span through the new frame and the
amplitude and confidence become the maxima seen so far; a closed note is
emitted exactly when its final duration is at least 0.05 s, shorter fragments
being dropped without error. -/
theorem consolidateNotes_spec :
    (∀ (currentNote note : DetectedNote) (rest : List DetectedNote),
        (|note.frequency - currentNote.frequency| < 10 ∧
            note.startTime - (currentNote.startTime + currentNote.duration) < 0.1 →
          ServerAudioAnalyzer.consolidateGoNotes currentNote (note :: rest) =
            ServerAudioAnalyzer.consolidateGoNotes
              { currentNote with
                  duration := note.startTime + note.duration - currentNote.startTime
                  amplitude := max currentNote.amplitude note.amplitude
                  confidence := max currentNote.confidence note.confidence }
              rest) ∧
          (¬(|note.frequency - currentNote.frequency| < 10 ∧
              note.startTime - (currentNote.startTime + currentNote.duration) < 0.1) →
            ServerAudioAnalyzer.consolidateGoNotes currentNote (note :: rest) =
              (if currentNote.duration ≥ 0.05 then [currentNote] else []) ++
                ServerAudioAnalyzer.consolidateGoNotes note rest)) ∧
      ∀ (notes : List DetectedNote) (n : DetectedNote),
        n ∈ ServerAudioAnalyzer.consolidateNotes notes → 0.05 ≤ n.duration := by
  constructor
  · intro cur note rest
    constructor
    · intro hc
      simp only [ServerAudioAnalyzer.consolidateGoNotes]
      rw [if_pos hc]
    · intro hc
      simp only [ServerAudioAnalyzer.consolidateGoNotes]
      rw [if_neg hc]
  · intro notes n h
    unfold ServerAudioAnalyzer.consolidateNotes at h
    rcases hs : ServerAudioAnalyzer.sortByStartTime notes with _ | ⟨m, rest⟩
    · rw [hs] at h
      exact absurd h (List.not_mem_nil n)
    · rw [hs] at h
      exact consolidateGoNotes_duration rest m n h

/-- Witness for C5: two close overlapping frames merge into one note whose
end is the second frame's end. -/
theorem consolidateNotes_spec_witness :
    ServerAudioAnalyzer.consolidateGoNotes mergeCur [mergeNext] =
      ServerAudioAnalyzer.consolidateGoNotes
        { mergeCur with
            duration := mergeNext.startTime + mergeNext.duration - mergeCur.startTime
            amplitude := max mergeCur.amplitude mergeNext.amplitude
            confidence := max mergeCur.confidence mergeNext.confidence }
        [] :=
  (consolidateNotes_spec.1 mergeCur mergeNext []).1 (by with_unfolding_all decide)

/-- C8 counterexample: on an empty (zero-length) buffer the analysis entry
point does not raise an error: it returns a normal result (no notes, default
tempo 100, default key `D`, confidence 0). -/
theorem analyzeAudioBuffer_empty_returns :
    ServerAudioAnalyzer.analyzeAudioBuffer (fun _ => 0) (fun _ => 0) (fun _ => 0) [] 1 =
      .ok ⟨[], 100, "D", 0⟩ := by
  with_unfolding_all rfl

/-- C8 (amended): for every empty buffer — whatever the duration argument and
whatever values the abstracted library functions return — the entry point
returns a successful result with zero notes, tempo 100, key `D` and
confidence 0, instead of failing fast. -/
theorem analyzeAudioBuffer_empty (sqrtQ log2Q : ℚ → ℚ) (sampleAt : ℕ → ℚ) (duration : ℚ) :
    ServerAudioAnalyzer.analyzeAudioBuffer sqrtQ log2Q sampleAt [] duration =
      .ok ⟨[], 100, "D", 0⟩ := by
  have hsamples : ServerAudioAnalyzer.bufferToSamples sampleAt [] = [] := by
    simp [ServerAudioAnalyzer.bufferToSamples]
  have hnotes : ∀ sr : ℚ, ServerAudioAnalyzer.detectNotesFromSamples sqrtQ log2Q [] sr = [] := by
    intro sr
    simp [ServerAudioAnalyzer.detectNotesFromSamples, ServerAudioAnalyzer.frameStarts,
      ServerAudioAnalyzer.consolidateNotes, ServerAudioAnalyzer.sortByStartTime]
  simp only [ServerAudioAnalyzer.analyzeAudioBuffer, hsamples, hnotes]
  norm_num [ServerAudioAnalyzer.detectTempo, ServerAudioAnalyzer.detectKey,
    ServerAudioAnalyzer.calculateOverallConfidence]

/-- The candidate periods are scanned in strictly increasing order. -/
theorem periodRange_sorted (minP maxP : ℤ) :
    (ServerAudioAnalyzer.periodRange minP maxP).Pairwise (· < ·) := by
  unfold ServerAudioAnalyzer.periodRange
  split
  · exact List.Pairwise.nil
  · rw [List.pairwise_map]
    exact (List.pairwise_lt_range _).imp (fun h => by omega)

/-- Membership bounds for the scanned periods. -/
theorem periodRange_mem (minP maxP p : ℤ) :
    p ∈ ServerAudioAnalyzer.periodRange minP maxP → minP ≤ p ∧ p ≤ maxP := by
  unfold ServerAudioAnalyzer.periodRange
  split
  · simp
  · intro hp
    rw [List.mem_map] at hp
    obtain ⟨i, hi, rfl⟩ := hp
    rw [List.mem_range] at hi
    omega

/-- The period scan is the generic strictly-improving maximum scan over the
per-period normalized correlations. -/
theorem bestPeriodScan_eq_argmaxScan (buffer : List ℚ) (periods : List ℤ) :
    ServerAudioAnalyzer.bestPeriodScan buffer periods =
      argmaxScan (ServerAudioAnalyzer.corrAt buffer) (0, 0) periods := rfl

/-- C7 counterexample: on the strictly alternating buffer with sample rate 8
and period range 2‥4, lags 2 and 4 attain exactly the same maximal normalized
correlation 1, yet the detector returns `8 / 2 = 4` — the shortest period,
i.e. the highest candidate frequency — not the claimed lowest frequency
`8 / 4 = 2`. -/
theorem autocorrelation_tiebreak_cex :
    ServerAudioAnalyzer.corrAt tieBuffer 2 = 1 ∧
      ServerAudioAnalyzer.corrAt tieBuffer 4 = 1 ∧
      (∀ p ∈ ServerAudioAnalyzer.periodRange ⌊(8 : ℚ) / 4⌋ ⌊(8 : ℚ) / 2⌋,
        ServerAudioAnalyzer.corrAt tieBuffer p ≤ 1) ∧
      ServerAudioAnalyzer.autocorrelationPitchDetection tieBuffer 8 2 4 = 4 ∧
      (4 : ℚ) ≠ 8 / 4 := by
  with_unfolding_all decide

/-- C7 (amended): the detector reports no pitch (returns 0) whenever the best
normalized correlation is at most 0.3; otherwise it returns
`sampleRate / p*` where `p*` is the **first** candidate lag attaining the
maximal correlation — the shortest such period, i.e. on exact ties the
**highest** candidate frequency (favoring a harmonic over the fundamental),
contrary to the claimed longest-period tie-break. -/
theorem autocorrelation_tiebreak (buffer : List ℚ) (sampleRate minFreq maxFreq : ℚ)
    (hmin : 1 ≤ ⌊sampleRate / maxFreq⌋) :
    ((ServerAudioAnalyzer.bestPeriodScan buffer
          (ServerAudioAnalyzer.periodRange ⌊sampleRate / maxFreq⌋ ⌊sampleRate / minFreq⌋)).1 ≤
          0.3 →
        ServerAudioAnalyzer.autocorrelationPitchDetection buffer sampleRate minFreq maxFreq = 0) ∧
      (0.3 < (ServerAudioAnalyzer.bestPeriodScan buffer
            (ServerAudioAnalyzer.periodRange ⌊sampleRate / maxFreq⌋ ⌊sampleRate / minFreq⌋)).1 →
        ServerAudioAnalyzer.autocorrelationPitchDetection buffer sampleRate minFreq maxFreq =
            sampleRate /
              ((ServerAudioAnalyzer.bestPeriodScan buffer
                  (ServerAudioAnalyzer.periodRange ⌊sampleRate / maxFreq⌋
                    ⌊sampleRate / minFreq⌋)).2 : ℚ) ∧
          (ServerAudioAnalyzer.bestPeriodScan buffer
              (ServerAudioAnalyzer.periodRange ⌊sampleRate / maxFreq⌋ ⌊sampleRate / minFreq⌋)).2 ∈
            ServerAudioAnalyzer.periodRange ⌊sampleRate / maxFreq⌋ ⌊sampleRate / minFreq⌋ ∧
          ServerAudioAnalyzer.corrAt buffer
              (ServerAudioAnalyzer.bestPeriodScan buffer
                (ServerAudioAnalyzer.periodRange ⌊sampleRate / maxFreq⌋ ⌊sampleRate / minFreq⌋)).2 =
            (ServerAudioAnalyzer.bestPeriodScan buffer
              (ServerAudioAnalyzer.periodRange ⌊sampleRate / maxFreq⌋ ⌊sampleRate / minFreq⌋)).1 ∧
          (∀ p ∈ ServerAudioAnalyzer.periodRange ⌊sampleRate / maxFreq⌋ ⌊sampleRate / minFreq⌋,
            ServerAudioAnalyzer.corrAt buffer p ≤
              (ServerAudioAnalyzer.bestPeriodScan buffer
                (ServerAudioAnalyzer.periodRange ⌊sampleRate / maxFreq⌋ ⌊sampleRate / minFreq⌋)).1) ∧
          ∀ p ∈ ServerAudioAnalyzer.periodRange ⌊sampleRate / maxFreq⌋ ⌊sampleRate / minFreq⌋,
            ServerAudioAnalyzer.corrAt buffer p =
                (ServerAudioAnalyzer.bestPeriodScan buffer
                  (ServerAudioAnalyzer.periodRange ⌊sampleRate / maxFreq⌋ ⌊sampleRate / minFreq⌋)).1 →
              (ServerAudioAnalyzer.bestPeriodScan buffer
                (ServerAudioAnalyzer.periodRange ⌊sampleRate / maxFreq⌋ ⌊sampleRate / minFreq⌋)).2 ≤
                p) := by
  set periods :=
    ServerAudioAnalyzer.periodRange ⌊sampleRate / maxFreq⌋ ⌊sampleRate / minFreq⌋ with hperiods
  set best := ServerAudioAnalyzer.bestPeriodScan buffer periods with hbest
  have hout : ServerAudioAnalyzer.autocorrelationPitchDetection buffer sampleRate minFreq maxFreq =
      if best.1 > 0.3 ∧ best.2 > 0 then sampleRate / (best.2 : ℚ) else 0 := rfl
  constructor
  · intro hle
    rw [hout, if_neg (fun hc => absurd hc.1 (not_lt.mpr hle))]
  · intro hgt
    have hscan := argmaxScan_spec (ServerAudioAnalyzer.corrAt buffer) periods 0 0
    rw [← bestPeriodScan_eq_argmaxScan, ← hbest] at hscan
    rcases hscan with ⟨heq, _⟩ | ⟨hsc, hpos, l1, l2, hsplit, hl1, hl2⟩
    · rw [heq] at hgt
      norm_num at hgt
    · have hmem : best.2 ∈ periods := by
        have hm : best.2 ∈ l1 ++ best.2 :: l2 :=
          List.mem_append_right _ (List.mem_cons_self _ _)
        rw [← hsplit] at hm
        exact hm
      have hbound : ∀ p ∈ periods, ServerAudioAnalyzer.corrAt buffer p ≤ best.1 := by
        have := argmaxScan_le (ServerAudioAnalyzer.corrAt buffer) periods 0 0
        rw [← bestPeriodScan_eq_argmaxScan, ← hbest] at this
        exact this
      have hp2pos : (0 : ℤ) < best.2 :=
        lt_of_lt_of_le Int.zero_lt_one (le_trans hmin (periodRange_mem _ _ _ hmem).1)
      refine ⟨by rw [hout, if_pos ⟨hgt, hp2pos⟩], hmem, hsc, hbound, ?_⟩
      intro p hp hcorr
      have hsorted := periodRange_sorted ⌊sampleRate / maxFreq⌋ ⌊sampleRate / minFreq⌋
      rw [← hperiods, hsplit, List.pairwise_append] at hsorted
      rw [hsplit] at hp
      rcases List.mem_append.mp hp with hp | hp
      · exact absurd hcorr (ne_of_lt (hl1 p hp))
      · rcases List.mem_cons.mp hp with rfl | hp
        · exact le_refl _
        · exact le_of_lt ((List.pairwise_cons.mp hsorted.2.1).1 p hp)

/-- Witness for C7 on the alternating buffer: the output is the sample rate
divided by the first maximal lag. -/
theorem autocorrelation_tiebreak_witness :
    ServerAudioAnalyzer.autocorrelationPitchDetection tieBuffer 8 2 4 =
      8 / ((ServerAudioAnalyzer.bestPeriodScan tieBuffer
          (ServerAudioAnalyzer.periodRange ⌊(8 : ℚ) / 4⌋ ⌊(8 : ℚ) / 2⌋)).2 : ℚ) :=
  ((autocorrelation_tiebreak tieBuffer 8 2 4 (by with_unfolding_all decide)).2
    (by with_unfolding_all decide)).1

/-! ### Histogram and key-score lemmas -/

/-- Folding histogram updates over notes with nonnegative weights keeps every
bucket nonnegative. -/
theorem histFold_nonneg :
    ∀ (notes : List DetectedNote) (h : String → ℚ),
      (∀ n ∈ notes, 0 ≤ n.duration * n.confidence) → (∀ p, 0 ≤ h p) →
      ∀ p, 0 ≤ notes.foldl ServerAudioAnalyzer.histStep h p := by
  intro notes
  induction notes with
  | nil => intro h _ hh p; exact hh p
  | cons note rest ih =>
    intro h hw hh p
    rw [List.foldl_cons]
    refine ih _ (fun n hn => hw n (List.mem_cons_of_mem _ hn)) ?_ p
    intro q
    unfold ServerAudioAnalyzer.histStep
    by_cases hq : q = note.pitch
    · rw [if_pos hq]
      exact add_nonneg (hh q) (hw note (List.mem_cons_self _ _))
    · rw [if_neg hq]
      exact hh q

/-- A bucket never touched by any note keeps its initial value. -/
theorem histFold_untouched :
    ∀ (notes : List DetectedNote) (h : String → ℚ) (p : String),
      (∀ n ∈ notes, n.pitch ≠ p) → notes.foldl ServerAudioAnalyzer.histStep h p = h p := by
  intro notes
  induction notes with
  | nil => intro h p _; rfl
  | cons note rest ih =>
    intro h p hp
    rw [List.foldl_cons,
      ih _ p (fun n hn => hp n (List.mem_cons_of_mem _ hn))]
    unfold ServerAudioAnalyzer.histStep
    rw [if_neg (fun hq => hp note (List.mem_cons_self _ _) hq.symm)]

/-- The key-score fold preserves nonnegativity when every bucket is
nonnegative. -/
theorem scoreFold_nonneg (h : String → ℚ) (hh : ∀ p, 0 ≤ h p) :
    ∀ (l : List String) (s : ℚ), 0 ≤ s →
      0 ≤ l.foldl (fun score pitch => if h pitch ≠ 0 then score + h pitch else score) s := by
  intro l
  induction l with
  | nil => intro s hs; exact hs
  | cons pitch rest ih =>
    intro s hs
    rw [List.foldl_cons]
    by_cases hp : h pitch ≠ 0
    · rw [if_pos hp]
      exact ih _ (add_nonneg hs (hh pitch))
    · rw [if_neg hp]
      exact ih _ hs

/-- Every candidate score is nonnegative when every bucket is nonnegative. -/
theorem calculateKeyScore_nonneg (h : String → ℚ) (hh : ∀ p, 0 ≤ h p) (key : String) :
    0 ≤ ServerAudioAnalyzer.calculateKeyScore h key :=
  scoreFold_nonneg h hh _ 0 (le_refl 0)

/-- The `Eb` pentatonic pattern holds only flat-spelled names: with those
buckets empty its score is 0. -/
theorem calculateKeyScore_Eb (h : String → ℚ) (h1 : h ("Eb") = 0) (h2 : h ("Gb") = 0)
    (h3 : h ("Ab") = 0) (h4 : h ("Bb") = 0) (h5 : h ("Db") = 0) :
    ServerAudioAnalyzer.calculateKeyScore h ("Eb") = 0 := by
  simp [ServerAudioAnalyzer.calculateKeyScore, ServerAudioAnalyzer.scalePatterns,
    h1, h2, h3, h4, h5]

/-- The `Bb` pentatonic pattern holds the natural name `'F'`: with the flat
buckets empty its score is exactly the `F` bucket. -/
theorem calculateKeyScore_Bb (h : String → ℚ) (h1 : h ("Eb") = 0) (h3 : h ("Ab") = 0)
    (h4 : h ("Bb") = 0) (h5 : h ("Db") = 0) :
    ServerAudioAnalyzer.calculateKeyScore h ("Bb") = h ("F") := by
  by_cases hF : h ("F") = 0 <;>
    simp [ServerAudioAnalyzer.calculateKeyScore, ServerAudioAnalyzer.scalePatterns,
      h1, h3, h4, h5, hF]

/-- With the flat buckets empty the `F` candidate scores the `F` and `C`
buckets. -/
theorem calculateKeyScore_F (h : String → ℚ) (h1 : h ("Eb") = 0) (h3 : h ("Ab") = 0)
    (h4 : h ("Bb") = 0) :
    ServerAudioAnalyzer.calculateKeyScore h ("F") = h ("F") + h ("C") := by
  by_cases hF : h ("F") = 0 <;> by_cases hC : h ("C") = 0 <;>
    simp [ServerAudioAnalyzer.calculateKeyScore, ServerAudioAnalyzer.scalePatterns,
      h1, h3, h4, hF, hC]

/-- For non-empty input, `detectKey` is the strictly-improving maximum scan
over the six candidate keys started at `(0, 'D')`. -/
theorem detectKey_eq_argmaxScan (notes : List DetectedNote) (hne : notes ≠ []) :
    ServerAudioAnalyzer.detectKey notes =
      (argmaxScan
        (ServerAudioAnalyzer.calculateKeyScore (ServerAudioAnalyzer.pitchClassHistogram notes))
        (0, "D") ServerAudioAnalyzer.shakuhachiKeys).2 := by
  unfold ServerAudioAnalyzer.detectKey
  rw [if_neg (by simp [List.isEmpty_iff, hne])]
  rfl

/-- C6 counterexample: on a single `C` note with negative weight
(duration −1 s), `detectKey` returns `D`, whose score is strictly below the
`Eb` candidate's score — the returned key does not attain the maximum. -/
theorem detectKey_not_argmax_cex :
    ServerAudioAnalyzer.detectKey [negWeightNote] = "D" ∧
      ("Eb") ∈ ServerAudioAnalyzer.shakuhachiKeys ∧
      ServerAudioAnalyzer.calculateKeyScore
          (ServerAudioAnalyzer.pitchClassHistogram [negWeightNote]) ("D") <
        ServerAudioAnalyzer.calculateKeyScore
          (ServerAudioAnalyzer.pitchClassHistogram [negWeightNote]) ("Eb") := by
  with_unfolding_all decide

/-- C6 (amended): on every note list whose per-note weights
`duration × confidence` are nonnegative, `detectKey` returns the candidate
attaining the maximal pentatonic score, ties broken in favor of the earliest
candidate in the fixed enumeration `D, Eb, F, G, A, Bb`; the empty list
returns the default `D`. -/
theorem detectKey_argmax (notes : List DetectedNote)
    (hw : ∀ n ∈ notes, 0 ≤ n.duration * n.confidence) :
    (notes = [] → ServerAudioAnalyzer.detectKey notes = "D") ∧
      ∃ l1 l2,
        ServerAudioAnalyzer.shakuhachiKeys = l1 ++ ServerAudioAnalyzer.detectKey notes :: l2 ∧
          (∀ k ∈ ServerAudioAnalyzer.shakuhachiKeys,
            ServerAudioAnalyzer.calculateKeyScore
                (ServerAudioAnalyzer.pitchClassHistogram notes) k ≤
              ServerAudioAnalyzer.calculateKeyScore
                (ServerAudioAnalyzer.pitchClassHistogram notes)
                (ServerAudioAnalyzer.detectKey notes)) ∧
          ∀ k ∈ l1,
            ServerAudioAnalyzer.calculateKeyScore
                (ServerAudioAnalyzer.pitchClassHistogram notes) k <
              ServerAudioAnalyzer.calculateKeyScore
                (ServerAudioAnalyzer.pitchClassHistogram notes)
                (ServerAudioAnalyzer.detectKey notes) := by
  have hhn : ∀ p, 0 ≤ ServerAudioAnalyzer.pitchClassHistogram notes p :=
    histFold_nonneg notes _ hw (fun _ => le_refl 0)
  by_cases hne : notes = []
  · subst hne
    refine ⟨fun _ => rfl, [], ["Eb", "F", "G", "A", "Bb"], rfl, ?_, by simp⟩
    intro k hk
    have h0 : ∀ q, ServerAudioAnalyzer.pitchClassHistogram ([] : List DetectedNote) q = 0 :=
      fun _ => rfl
    fin_cases hk <;>
      simp [ServerAudioAnalyzer.detectKey, ServerAudioAnalyzer.calculateKeyScore,
        ServerAudioAnalyzer.scalePatterns, h0]
  · rw [detectKey_eq_argmaxScan notes hne]
    set score :=
      ServerAudioAnalyzer.calculateKeyScore (ServerAudioAnalyzer.pitchClassHistogram notes)
      with hscore
    refine ⟨fun h => absurd h hne, ?_⟩
    rcases argmaxScan_spec score ServerAudioAnalyzer.shakuhachiKeys 0 "D" with
      ⟨heq, hle⟩ | ⟨hsc, hpos, l1, l2, hsplit, hl1, hl2⟩
    · rw [heq]
      refine ⟨[], ["Eb", "F", "G", "A", "Bb"], rfl, ?_, by simp⟩
      intro k hk
      exact le_trans (hle k hk) (calculateKeyScore_nonneg _ hhn _)
    · refine ⟨l1, l2, hsplit, ?_, ?_⟩
      · intro k hk
        rw [hsc]
        exact argmaxScan_le score ServerAudioAnalyzer.shakuhachiKeys 0 "D" k hk
      · intro k hk
        rw [hsc]
        exact hl1 k hk

/-- Witness for C6 on a single `F` note with weight 1. -/
theorem detectKey_argmax_witness :
    ∃ l1 l2,
      ServerAudioAnalyzer.shakuhachiKeys =
          l1 ++ ServerAudioAnalyzer.detectKey [pitchFNote] :: l2 ∧
        (∀ k ∈ ServerAudioAnalyzer.shakuhachiKeys,
          ServerAudioAnalyzer.calculateKeyScore
              (ServerAudioAnalyzer.pitchClassHistogram [pitchFNote]) k ≤
            ServerAudioAnalyzer.calculateKeyScore
              (ServerAudioAnalyzer.pitchClassHistogram [pitchFNote])
              (ServerAudioAnalyzer.detectKey [pitchFNote])) ∧
        ∀ k ∈ l1,
          ServerAudioAnalyzer.calculateKeyScore
              (ServerAudioAnalyzer.pitchClassHistogram [pitchFNote]) k <
            ServerAudioAnalyzer.calculateKeyScore
              (ServerAudioAnalyzer.pitchClassHistogram [pitchFNote])
              (ServerAudioAnalyzer.detectKey [pitchFNote]) :=
  (detectKey_argmax [pitchFNote] (by with_unfolding_all decide)).2

/-- `Bb` occurs only at the last position of the candidate enumeration, so
any split at `Bb` has the five other candidates on its left. -/
theorem split_at_Bb (l1 l2 : List String)
    (h : ServerAudioAnalyzer.shakuhachiKeys = l1 ++ ("Bb") :: l2) :
    l1 = ["D", "Eb", "F", "G", "A"] := by
  unfold ServerAudioAnalyzer.shakuhachiKeys at h
  rcases l1 with _ | ⟨a1, l1⟩
  · simp at h
  rcases l1 with _ | ⟨a2, l1⟩
  · simp at h
  rcases l1 with _ | ⟨a3, l1⟩
  · simp at h
  rcases l1 with _ | ⟨a4, l1⟩
  · simp at h
  rcases l1 with _ | ⟨a5, l1⟩
  · simp at h
  rcases l1 with _ | ⟨a6, l1⟩
  · simp_all
  · simp at h

/-- C10 counterexample: the `Bb` pentatonic pattern contains the natural
name `'F'` (it is not flat-only), and on a single sharp-table `F` note the
`Bb` candidate scores 1, not 0. -/
theorem flatKeyScores_cex :
    pitchFNote.pitch ∈ ServerAudioAnalyzer.noteNames ∧
      ServerAudioAnalyzer.scalePatterns ("Bb") = ["Bb", "Db", "Eb", "F", "Ab"] ∧
      ("F") ∈ ServerAudioAnalyzer.scalePatterns ("Bb") ∧
      ServerAudioAnalyzer.calculateKeyScore
          (ServerAudioAnalyzer.pitchClassHistogram [pitchFNote]) ("Bb") = 1 ∧
      (1 : ℚ) ≠ 0 := by
  with_unfolding_all decide

/-- C10 (amended): on every note list whose pitch names come from the fixed
sharp-spelled table and whose weights are nonnegative, `detectKey` never
returns `Eb` or `Bb`: the `Eb` pattern holds only flat names (score 0), and
although the `Bb` pattern holds `'F'` — so `Bb` can score the `F` bucket —
the earlier `F` candidate scores at least as much, so the strictly-improving
scan never selects `Bb`. -/
theorem detectKey_never_Eb_Bb (notes : List DetectedNote)
    (hp : ∀ n ∈ notes, n.pitch ∈ ServerAudioAnalyzer.noteNames)
    (hw : ∀ n ∈ notes, 0 ≤ n.duration * n.confidence) :
    ServerAudioAnalyzer.detectKey notes ≠ "Eb" ∧
      ServerAudioAnalyzer.detectKey notes ≠ "Bb" := by
  have hq' : ∀ s ∈ ServerAudioAnalyzer.noteNames,
      s ∉ (["Eb", "Gb", "Ab", "Bb", "Db"] : List String) := by
    with_unfolding_all decide
  have hflats : ∀ q ∈ (["Eb", "Gb", "Ab", "Bb", "Db"] : List String),
      ServerAudioAnalyzer.pitchClassHistogram notes q = 0 := by
    intro q hqf
    exact histFold_untouched notes _ q
      (fun n hn heq => hq' n.pitch (hp n hn) (heq.symm ▸ hqf))
  have hhn : ∀ p, 0 ≤ ServerAudioAnalyzer.pitchClassHistogram notes p :=
    histFold_nonneg notes _ hw (fun _ => le_refl 0)
  by_cases hne : notes = []
  · subst hne
    exact ⟨by with_unfolding_all decide, by with_unfolding_all decide⟩
  · rw [detectKey_eq_argmaxScan notes hne]
    rcases argmaxScan_spec
        (ServerAudioAnalyzer.calculateKeyScore (ServerAudioAnalyzer.pitchClassHistogram notes))
        ServerAudioAnalyzer.shakuhachiKeys 0 "D" with
      ⟨heq, _⟩ | ⟨hsc, hpos, l1, l2, hsplit, hl1, hl2⟩
    · rw [heq]
      exact ⟨by decide, by decide⟩
    · constructor
      · intro hEbeq
        rw [hEbeq] at hsc
        rw [calculateKeyScore_Eb _ (hflats _ (by decide)) (hflats _ (by decide))
          (hflats _ (by decide)) (hflats _ (by decide)) (hflats _ (by decide))] at hsc
        rw [← hsc] at hpos
        exact lt_irrefl 0 hpos
      · intro hBbeq
        rw [hBbeq] at hsc hsplit
        have hl1eq : l1 = ["D", "Eb", "F", "G", "A"] := split_at_Bb l1 l2 hsplit
        have hFl1 : ("F") ∈ l1 := by rw [hl1eq]; decide
        have hFlt := hl1 _ hFl1
        rw [← hsc,
          calculateKeyScore_Bb _ (hflats _ (by decide)) (hflats _ (by decide))
            (hflats _ (by decide)) (hflats _ (by decide)),
          calculateKeyScore_F _ (hflats _ (by decide)) (hflats _ (by decide))
            (hflats _ (by decide))] at hFlt
        have hC : 0 ≤ ServerAudioAnalyzer.pitchClassHistogram notes ("C") := hhn _
        linarith

/-- Witness for C10 on a single sharp-table `F` note. -/
theorem detectKey_never_Eb_Bb_witness :
    ServerAudioAnalyzer.detectKey [pitchFNote] ≠ "Eb" ∧
      ServerAudioAnalyzer.detectKey [pitchFNote] ≠ "Bb" :=
  detectKey_never_Eb_Bb [pitchFNote] (by with_unfolding_all decide)
    (by with_unfolding_all decide)

/-! ### Phrase-grouping lemmas -/

/-- The grouping loop never returns an empty phrase list on non-empty
input. -/
theorem groupNotesGo_ne_nil :
    ∀ (notes : List DetectedNote) (prev : Option DetectedNote) (cur : List DetectedNote),
      notes ≠ [] → KinkoMapper.groupNotesGo prev cur notes ≠ [] := by
  intro notes
  induction notes with
  | nil => intro _ _ h; exact absurd rfl h
  | cons n rest ih =>
    intro prev cur _
    rcases rest with _ | ⟨m, rest2⟩
    · simp [KinkoMapper.groupNotesGo]
    · simp only [KinkoMapper.groupNotesGo]
      split
      · exact List.cons_ne_nil _ _
      · exact ih (some n) (cur ++ [n]) (List.cons_ne_nil _ _)

/-- Every phrase the grouping loop emits is non-empty. -/
theorem groupNotesGo_mem_ne_nil :
    ∀ (notes : List DetectedNote) (prev : Option DetectedNote) (cur : List DetectedNote)
      (ph : List DetectedNote),
      ph ∈ KinkoMapper.groupNotesGo prev cur notes → ph ≠ [] := by
  intro notes
  induction notes with
  | nil => intro _ _ _ h; exact absurd h (List.not_mem_nil _)
  | cons n rest ih =>
    intro prev cur ph hph
    rcases rest with _ | ⟨m, rest2⟩
    · simp only [KinkoMapper.groupNotesGo, List.mem_singleton] at hph
      subst hph
      exact List.append_ne_nil_of_right_ne_nil _ (List.cons_ne_nil _ _)
    · simp only [KinkoMapper.groupNotesGo] at hph
      split at hph
      · rcases List.mem_cons.mp hph with rfl | hph
        · exact List.append_ne_nil_of_right_ne_nil _ (List.cons_ne_nil _ _)
        · exact ih (some n) [] ph hph
      · exact ih (some n) (cur ++ [n]) ph hph

/-- Every phrase that phrase-consolidation emits is non-empty. -/
theorem consolidatePhrasesGo_mem_ne_nil :
    ∀ (l : List (List DetectedNote)) (ph : List DetectedNote),
      ph ∈ KinkoMapper.consolidatePhrasesGo l → ph ≠ [] := by
  intro l
  induction l using KinkoMapper.consolidatePhrasesGo.induct with
  | case1 => intro ph hph; exact absurd hph (List.not_mem_nil _)
  | case2 p hp =>
    intro ph hph
    rw [KinkoMapper.consolidatePhrasesGo, if_pos hp] at hph
    exact absurd hph (List.not_mem_nil _)
  | case3 p hp =>
    intro ph hph
    rw [KinkoMapper.consolidatePhrasesGo, if_neg hp] at hph
    rw [List.mem_singleton] at hph
    subst hph
    simpa [List.isEmpty_iff] using hp
  | case4 p q rest2 hp ih =>
    intro ph hph
    rw [KinkoMapper.consolidatePhrasesGo, if_pos hp] at hph
    exact ih ph hph
  | case5 p q rest2 hp hcond ih =>
    intro ph hph
    rw [KinkoMapper.consolidatePhrasesGo, if_neg hp, if_pos hcond] at hph
    rcases List.mem_cons.mp hph with rfl | hph
    · intro hcontra
      rcases List.append_eq_nil.mp hcontra with ⟨hp1, _⟩
      have hpne : p ≠ [] := by simpa [List.isEmpty_iff] using hp
      exact hpne hp1
    · exact ih ph hph
  | case6 p q rest2 hp hcond ih =>
    intro ph hph
    rw [KinkoMapper.consolidatePhrasesGo, if_neg hp, if_neg hcond] at hph
    rcases List.mem_cons.mp hph with rfl | hph
    · simpa [List.isEmpty_iff] using hp
    · exact ih ph hph

/-- Phrase-consolidation of a non-empty list of non-empty phrases is
non-empty. -/
theorem consolidatePhrasesGo_ne_nil (l : List (List DetectedNote))
    (h1 : ∀ ph ∈ l, ph ≠ []) (h2 : l ≠ []) :
    KinkoMapper.consolidatePhrasesGo l ≠ [] := by
  rcases l with _ | ⟨p, rest⟩
  · exact absurd rfl h2
  · have hp : ¬p.isEmpty = true := by
      simpa [List.isEmpty_iff] using h1 p (List.mem_cons_self _ _)
    rcases rest with _ | ⟨q, rest2⟩
    · rw [KinkoMapper.consolidatePhrasesGo, if_neg hp]
      exact List.cons_ne_nil _ _
    · rw [KinkoMapper.consolidatePhrasesGo, if_neg hp]
      split
      · exact List.cons_ne_nil _ _
      · exact List.cons_ne_nil _ _

/-- On non-empty input, `groupIntoPhrases` is the consolidation of the
grouping loop (the `[phrases.flat()]` fallback is unreachable). -/
theorem groupIntoPhrases_eq (notes : List DetectedNote) (hne : notes ≠ []) :
    KinkoMapper.groupIntoPhrases notes =
      KinkoMapper.consolidatePhrasesGo (KinkoMapper.groupNotesGo none [] notes) := by
  have hfil : ¬notes.isEmpty = true := by simpa [List.isEmpty_iff] using hne
  have hcne : KinkoMapper.consolidatePhrasesGo (KinkoMapper.groupNotesGo none [] notes) ≠ [] :=
    consolidatePhrasesGo_ne_nil _ (groupNotesGo_mem_ne_nil notes none [])
      (groupNotesGo_ne_nil notes none [] hne)
  unfold KinkoMapper.groupIntoPhrases KinkoMapper.consolidatePhrases
  rw [if_neg hfil, if_neg (by simpa [List.isEmpty_iff] using hcne)]

/-- C1: for every detected-note list, `convertToKinko` emits a score with at
least one phrase, each phrase holding at least one note; when no note
survives the range filter, the score is exactly the single-phrase,
single-note `ro` fallback (duration 1.0), with no error raised. -/
theorem convertToKinko_never_empty (detectedNotes : List DetectedNote) :
    (KinkoMapper.convertToKinko detectedNotes).phrases ≠ [] ∧
      (∀ ph ∈ (KinkoMapper.convertToKinko detectedNotes).phrases, ph.notes ≠ []) ∧
      (detectedNotes.filter (fun note => KinkoMapper.isInShakuhachiRange note.frequency) = [] →
        KinkoMapper.convertToKinko detectedNotes =
          { title := "転写された楽曲",
            phrases := [{ notes := [KinkoMapper.fallbackKinkoNote], breath := true }] }) := by
  by_cases hf :
    detectedNotes.filter (fun note => KinkoMapper.isInShakuhachiRange note.frequency) = []
  · have hconv : KinkoMapper.convertToKinko detectedNotes =
        { title := "転写された楽曲",
          phrases := [{ notes := [KinkoMapper.fallbackKinkoNote], breath := true }] } := by
      unfold KinkoMapper.convertToKinko
      rw [if_pos (by simp [hf])]
    rw [hconv]
    exact ⟨List.cons_ne_nil _ _, by simp, fun _ => rfl⟩
  · have hfil :
        ¬(detectedNotes.filter
            (fun note => KinkoMapper.isInShakuhachiRange note.frequency)).isEmpty = true := by
      simpa [List.isEmpty_iff] using hf
    have hconv : (KinkoMapper.convertToKinko detectedNotes).phrases =
        (KinkoMapper.groupIntoPhrases
            (detectedNotes.filter
              (fun note => KinkoMapper.isInShakuhachiRange note.frequency))).map
          KinkoMapper.convertPhrase := by
      unfold KinkoMapper.convertToKinko
      rw [if_neg hfil]
    rw [hconv, groupIntoPhrases_eq _ hf]
    refine ⟨?_, ?_, fun h => absurd h hf⟩
    · rw [ne_eq, List.map_eq_nil_iff]
      exact consolidatePhrasesGo_ne_nil _ (groupNotesGo_mem_ne_nil _ none [])
        (groupNotesGo_ne_nil _ none [] hf)
    · intro ph hph
      rw [List.mem_map] at hph
      obtain ⟨p, hpmem, rfl⟩ := hph
      have hpne : p ≠ [] := consolidatePhrasesGo_mem_ne_nil _ p hpmem
      simpa [KinkoMapper.convertPhrase, List.map_eq_nil_iff] using hpne

/-- Witness for C1: the empty input yields exactly the fallback score. -/
theorem convertToKinko_never_empty_witness :
    (KinkoMapper.convertToKinko []).phrases ≠ [] ∧
      KinkoMapper.convertToKinko [] =
        { title := "転写された楽曲",
          phrases := [{ notes := [KinkoMapper.fallbackKinkoNote], breath := true }] } :=
  ⟨(convertToKinko_never_empty []).1, (convertToKinko_never_empty []).2.2 rfl⟩

/-- The phrase-break test holds exactly when one of the four source
conditions holds (gap over 0.8 s, gap over half the average duration with the
JS `||` fallback, pitch jump over half the current frequency, or the phrase
already holding 8 notes). -/
theorem shouldBreakPhrase_iff (prev : Option DetectedNote) (note nextNote : DetectedNote)
    (len : ℕ) :
    KinkoMapper.shouldBreakPhrase prev note nextNote len = true ↔
      (0.8 < nextNote.startTime - (note.startTime + note.duration) ∨
        KinkoMapper.avgDurationAt prev note * 0.5 <
          nextNote.startTime - (note.startTime + note.duration) ∨
        note.frequency * 0.5 < |nextNote.frequency - note.frequency| ∨
        8 ≤ len) := by
  simp [KinkoMapper.shouldBreakPhrase, or_assoc]

/-- A gapless step (no silence, bounded pitch jump, nonnegative durations)
below the 8-note cap never breaks the phrase. -/
theorem shouldBreakPhrase_false (prev : Option DetectedNote) (note next : DetectedNote)
    (len : ℕ) (hgap : next.startTime = note.startTime + note.duration)
    (hjump : |next.frequency - note.frequency| ≤ note.frequency * 0.5)
    (hdur : 0 ≤ note.duration)
    (hprev : ∀ p, prev = some p → 0 ≤ p.duration)
    (hlen : len < 8) :
    KinkoMapper.shouldBreakPhrase prev note next len = false := by
  have hgap0 : next.startTime - (note.startTime + note.duration) = 0 := by
    rw [hgap]; ring
  have havg : 0 ≤ KinkoMapper.avgDurationAt prev note := by
    unfold KinkoMapper.avgDurationAt
    rcases prev with _ | p
    · linarith
    · by_cases hz : p.duration = 0
      · simp only [hz, if_pos]
        linarith
      · have := hprev p rfl
        simp only [hz, if_neg, not_false_iff]
        linarith
  rw [Bool.eq_false_iff, ne_eq, shouldBreakPhrase_iff, hgap0]
  push_neg
  exact ⟨by norm_num, by linarith, hjump, by omega⟩

/-- Once the current phrase holds 8 notes, the break test always fires. -/
theorem shouldBreakPhrase_true_len (prev : Option DetectedNote) (note next : DetectedNote)
    (len : ℕ) (hlen : 8 ≤ len) :
    KinkoMapper.shouldBreakPhrase prev note next len = true :=
  (shouldBreakPhrase_iff prev note next len).mpr (Or.inr (Or.inr (Or.inr hlen)))

/-- Before consolidation, no grouped phrase exceeds 8 notes. -/
theorem groupNotesGo_len_le :
    ∀ (notes : List DetectedNote) (prev : Option DetectedNote) (cur : List DetectedNote),
      cur.length ≤ 7 → ∀ ph ∈ KinkoMapper.groupNotesGo prev cur notes, ph.length ≤ 8 := by
  intro notes
  induction notes with
  | nil => intro _ _ _ _ h; exact absurd h (List.not_mem_nil _)
  | cons n rest ih =>
    intro prev cur hcur ph hph
    rcases rest with _ | ⟨m, rest2⟩
    · simp only [KinkoMapper.groupNotesGo, List.mem_singleton] at hph
      subst hph
      rw [List.length_append, List.length_singleton]
      omega
    · simp only [KinkoMapper.groupNotesGo] at hph
      by_cases hb : KinkoMapper.shouldBreakPhrase prev n m (cur ++ [n]).length = true
      · rw [if_pos hb] at hph
        rcases List.mem_cons.mp hph with rfl | hph
        · rw [List.length_append, List.length_singleton]
          omega
        · exact ih (some n) [] (by simp) ph hph
      · rw [if_neg hb] at hph
        refine ih (some n) (cur ++ [n]) ?_ ph hph
        have hlen : ¬(8 ≤ (cur ++ [n]).length) := fun h8 =>
          hb ((shouldBreakPhrase_iff prev n m _).mpr (Or.inr (Or.inr (Or.inr h8))))
        omega

/-- After the single-note-phrase merge of consolidation, no phrase exceeds 9
notes (a 1-note phrase merged into a following at-most-8-note phrase). -/
theorem consolidatePhrasesGo_len_le :
    ∀ (l : List (List DetectedNote)),
      (∀ ph ∈ l, ph.length ≤ 8) →
      ∀ ph ∈ KinkoMapper.consolidatePhrasesGo l, ph.length ≤ 9 := by
  intro l
  induction l using KinkoMapper.consolidatePhrasesGo.induct with
  | case1 => intro _ _ h; exact absurd h (List.not_mem_nil _)
  | case2 p hp =>
    intro _ ph hph
    rw [KinkoMapper.consolidatePhrasesGo, if_pos hp] at hph
    exact absurd hph (List.not_mem_nil _)
  | case3 p hp =>
    intro h8 ph hph
    rw [KinkoMapper.consolidatePhrasesGo, if_neg hp] at hph
    rw [List.mem_singleton] at hph
    subst hph
    exact le_trans (h8 ph (List.mem_cons_self _ _)) (by omega)
  | case4 p q rest2 hp ih =>
    intro h8 ph hph
    rw [KinkoMapper.consolidatePhrasesGo, if_pos hp] at hph
    exact ih (fun x hx => h8 x (List.mem_cons_of_mem _ hx)) ph hph
  | case5 p q rest2 hp hcond ih =>
    intro h8 ph hph
    rw [KinkoMapper.consolidatePhrasesGo, if_neg hp, if_pos hcond] at hph
    rcases List.mem_cons.mp hph with rfl | hph
    · rw [List.length_append, hcond.1]
      have hq : q.length ≤ 8 :=
        h8 q (List.mem_cons_of_mem _ (List.mem_cons_self _ _))
      omega
    · exact ih (fun x hx => h8 x (List.mem_cons_of_mem _ (List.mem_cons_of_mem _ hx))) ph hph
  | case6 p q rest2 hp hcond ih =>
    intro h8 ph hph
    rw [KinkoMapper.consolidatePhrasesGo, if_neg hp, if_neg hcond] at hph
    rcases List.mem_cons.mp hph with rfl | hph
    · exact le_trans (h8 ph (List.mem_cons_self _ _)) (by omega)
    · exact ih (fun x hx => h8 x (List.mem_cons_of_mem _ hx)) ph hph

/-- C4 counterexample: (a) a large-pitch-jump run produces a single-note
phrase that consolidation merges back, emitting one 9-note phrase (more than
the claimed 8); (b) with a zero-duration previous note the claimed
average-duration break rule (`gap > 0.5 × (1 + 0)/2`) holds between the
second and third note, yet the code emits a single 3-note phrase — the JS
`||` fallback used the current note's duration instead. -/
theorem groupIntoPhrases_cex :
    (KinkoMapper.groupIntoPhrases longJumpRun).map List.length = [9] ∧
      (KinkoMapper.groupIntoPhrases zeroDurationRun).map List.length = [3] ∧
      (0.5 : ℚ) * ((1 + 0) / 2) < (1.3 : ℚ) - (0 + 1) := by
  refine ⟨?_, ?_, by norm_num⟩ <;> with_unfolding_all decide

/-- C4 (amended): the grouping loop closes the current phrase before the next
note exactly when the silence gap exceeds 0.8 s, or the gap exceeds 0.5 × the
average of the current duration and the previous note's duration (with the
current note's duration substituted when there is no previous note or its
duration is 0), or the pitch jump exceeds 0.5 × the current frequency, or the
phrase already holds 8 notes; before consolidation no phrase exceeds 8 notes;
after the single-note-phrase merge an emitted phrase holds at most 9 notes;
and a gapless 10-note run with no large pitch jumps still yields exactly 2
phrases. -/
theorem groupIntoPhrases_spec :
    (∀ (prev : Option DetectedNote) (note nextNote : DetectedNote) (len : ℕ),
        KinkoMapper.shouldBreakPhrase prev note nextNote len = true ↔
          (0.8 < nextNote.startTime - (note.startTime + note.duration) ∨
            KinkoMapper.avgDurationAt prev note * 0.5 <
              nextNote.startTime - (note.startTime + note.duration) ∨
            note.frequency * 0.5 < |nextNote.frequency - note.frequency| ∨
            8 ≤ len)) ∧
      (∀ (notes : List DetectedNote) (ph : List DetectedNote),
        ph ∈ KinkoMapper.groupNotesGo none [] notes → ph.length ≤ 8) ∧
      (∀ (notes : List DetectedNote) (ph : List DetectedNote),
        ph ∈ KinkoMapper.groupIntoPhrases notes → ph.length ≤ 9) ∧
      (∀ notes : List DetectedNote,
        notes.length = 10 →
        (∀ p ∈ notes.zip notes.tail,
          p.2.startTime = p.1.startTime + p.1.duration ∧
            |p.2.frequency - p.1.frequency| ≤ p.1.frequency * 0.5) →
        (∀ n ∈ notes, 0 ≤ n.duration) →
        (KinkoMapper.groupIntoPhrases notes).length = 2) := by
  refine ⟨shouldBreakPhrase_iff, ?_, ?_, ?_⟩
  · intro notes ph hph
    exact groupNotesGo_len_le notes none [] (by simp) ph hph
  · intro notes ph hph
    rcases eq_or_ne notes [] with rfl | hne
    · simp [KinkoMapper.groupIntoPhrases] at hph
    · rw [groupIntoPhrases_eq _ hne] at hph
      exact consolidatePhrasesGo_len_le _
        (groupNotesGo_len_le notes none [] (by simp)) ph hph
  · intro notes hlen hz hd
    rcases notes with _ | ⟨n1, notes⟩; · simp at hlen
    rcases notes with _ | ⟨n2, notes⟩; · simp at hlen
    rcases notes with _ | ⟨n3, notes⟩; · simp at hlen
    rcases notes with _ | ⟨n4, notes⟩; · simp at hlen
    rcases notes with _ | ⟨n5, notes⟩; · simp at hlen
    rcases notes with _ | ⟨n6, notes⟩; · simp at hlen
    rcases notes with _ | ⟨n7, notes⟩; · simp at hlen
    rcases notes with _ | ⟨n8, notes⟩; · simp at hlen
    rcases notes with _ | ⟨n9, notes⟩; · simp at hlen
    rcases notes with _ | ⟨n10, notes⟩; · simp at hlen
    rcases notes with _ | ⟨n11, notes⟩
    case cons => simp at hlen
    have h12 := hz (n1, n2) (by simp)
    have h23 := hz (n2, n3) (by simp)
    have h34 := hz (n3, n4) (by simp)
    have h45 := hz (n4, n5) (by simp)
    have h56 := hz (n5, n6) (by simp)
    have h67 := hz (n6, n7) (by simp)
    have h78 := hz (n7, n8) (by simp)
    have h910 := hz (n9, n10) (by simp)
    have hd1 := hd n1 (by simp)
    have hd2 := hd n2 (by simp)
    have hd3 := hd n3 (by simp)
    have hd4 := hd n4 (by simp)
    have hd5 := hd n5 (by simp)
    have hd6 := hd n6 (by simp)
    have hd7 := hd n7 (by simp)
    have hd8 := hd n8 (by simp)
    have hd9 := hd n9 (by simp)
    have hb1 : KinkoMapper.shouldBreakPhrase none n1 n2 1 = false :=
      shouldBreakPhrase_false none n1 n2 1 h12.1 h12.2 hd1 (fun p hp => by cases hp)
        (by omega)
    have hb2 : KinkoMapper.shouldBreakPhrase (some n1) n2 n3 2 = false :=
      shouldBreakPhrase_false _ n2 n3 2 h23.1 h23.2 hd2
        (fun p hp => by cases hp; exact hd1) (by omega)
    have hb3 : KinkoMapper.shouldBreakPhrase (some n2) n3 n4 3 = false :=
      shouldBreakPhrase_false _ n3 n4 3 h34.1 h34.2 hd3
        (fun p hp => by cases hp; exact hd2) (by omega)
    have hb4 : KinkoMapper.shouldBreakPhrase (some n3) n4 n5 4 = false :=
      shouldBreakPhrase_false _ n4 n5 4 h45.1 h45.2 hd4
        (fun p hp => by cases hp; exact hd3) (by omega)
    have hb5 : KinkoMapper.shouldBreakPhrase (some n4) n5 n6 5 = false :=
      shouldBreakPhrase_false _ n5 n6 5 h56.1 h56.2 hd5
        (fun p hp => by cases hp; exact hd4) (by omega)
    have hb6 : KinkoMapper.shouldBreakPhrase (some n5) n6 n7 6 = false :=
      shouldBreakPhrase_false _ n6 n7 6 h67.1 h67.2 hd6
        (fun p hp => by cases hp; exact hd5) (by omega)
    have hb7 : KinkoMapper.shouldBreakPhrase (some n6) n7 n8 7 = false :=
      shouldBreakPhrase_false _ n7 n8 7 h78.1 h78.2 hd7
        (fun p hp => by cases hp; exact hd6) (by omega)
    have hb8 : KinkoMapper.shouldBreakPhrase (some n7) n8 n9 8 = true :=
      shouldBreakPhrase_true_len _ n8 n9 8 (by omega)
    have hb9 : KinkoMapper.shouldBreakPhrase (some n8) n9 n10 1 = false :=
      shouldBreakPhrase_false _ n9 n10 1 h910.1 h910.2 hd9
        (fun p hp => by cases hp; exact hd8) (by omega)
    rw [groupIntoPhrases_eq _ (List.cons_ne_nil _ _)]
    have hgo : KinkoMapper.groupNotesGo none [] [n1, n2, n3, n4, n5, n6, n7, n8, n9, n10] =
        [[n1, n2, n3, n4, n5, n6, n7, n8], [n9, n10]] := by
      simp only [KinkoMapper.groupNotesGo, List.nil_append, List.cons_append,
        List.length_cons, List.length_nil, List.length_singleton, Nat.reduceAdd,
        hb1, hb2, hb3, hb4, hb5, hb6, hb7, hb8, hb9, if_true, if_false,
        Bool.false_eq_true, ite_true, ite_false]
    rw [hgo]
    simp [KinkoMapper.consolidatePhrasesGo]

/-- Witness for C4: the concrete gapless ten-note run yields exactly two
phrases. -/
theorem groupIntoPhrases_spec_witness :
    (KinkoMapper.groupIntoPhrases gaplessRun).length = 2 :=
  groupIntoPhrases_spec.2.2.2 gaplessRun (by with_unfolding_all decide)
    (by with_unfolding_all decide) (by with_unfolding_all decide)
